import Mathlib

/-!
Verification of structural algorithms of an awkward-array layout library:
the Content node data model, the index normalizer, the record merge
algorithm and the Form-driven buffer codec.  Each definition is a shallow
embedding of the corresponding Python function named in its doc comment;
machine integers are modelled as `Int`/`Nat` (no index in the modelled
paths overflows 64 bits), numeric-backend array primitives are modelled as
the evident list operations, and every fallible code path returns
`Except`.
-/

namespace Awkward

/-- Error raised by bounds-checked integer indexing (`IndexBounds` of the
error taxonomy). -/
inductive IndexErr where
  | indexBounds
  deriving Repr, DecidableEq

/-- Translated from `ArrayModuleNumpyLike.regularize_index_for_length`
(`src/awkward/_nplikes/array_module.py`): a negative index is shifted by the
length, and the result must lie in `[0, length)`, else the index error is
raised. -/
def regularizeIndexForLength (index : Int) (length : Nat) : Except IndexErr Int :=
  let index := if index < 0 then index + length else index
  if 0 ≤ index ∧ index < (length : Int) then .ok index else .error .indexBounds

/-- Translated from `RecordArray._getitem_at`
(`src/awkward/contents/recordarray.py`), known-data regime with a known
length: a negative position is shifted by the length, and a position outside
`[0, length)` raises the index error; the returned integer is the resolved
position of the `Record` the source builds. -/
def recordGetitemAt (length : Nat) (pos : Int) : Except IndexErr Int :=
  let pos := if pos < 0 then pos + length else pos
  if 0 ≤ pos ∧ pos < (length : Int) then .ok pos else .error .indexBounds

/-- Translated from `regularise_slice` (`src/awkward/_slicing.py`), known-length
path: `None` endpoints default to `0` and the length, negative endpoints are
shifted by the length, both endpoints are clamped into `[0, length]`, and a
`None` step defaults to `1` (the step is otherwise untouched). -/
def regulariseSlice (start? stop? step? : Option Int) (length : Nat) :
    Int × Int × Int :=
  let start : Int := match start? with | none => 0 | some s => s
  let stop : Int := match stop? with | none => (length : Int) | some s => s
  let step : Int := match step? with | none => 1 | some s => s
  let start : Int := if start < 0 then start + length else start
  let stop : Int := if stop < 0 then stop + length else stop
  let start : Int := min (max start 0) (length : Int)
  let stop : Int := min (max stop 0) (length : Int)
  (start, stop, step)

/-- Endpoint resolution as the specification words it: a `None` endpoint takes
the stated default, and a negative endpoint is shifted by the length. -/
def specResolveEndpoint (v? : Option Int) (dflt : Int) (length : Nat) : Int :=
  match v? with
  | none => dflt
  | some v => if v < 0 then v + length else v

/-- Clamping of an endpoint into the interval `[0, length]`. -/
def specClamp (v : Int) (length : Nat) : Int := min (max v 0) (length : Int)

/-- Claim C6: for every node of length `L ≥ 0` and every integer `i`, indexing
at axis 0 raises `IndexBounds` exactly when `i < -L` or `i ≥ L`, and for `i` in
`[-L, L)` it succeeds with a negative `i` resolved to `i + L`; this holds for
`RecordArray._getitem_at` and for the generic
`regularize_index_for_length`, which agree. -/
theorem getitemAtAxisZeroBounds (L : Nat) (i : Int) :
    recordGetitemAt L i =
      (if i < -(L : Int) ∨ (L : Int) ≤ i then Except.error IndexErr.indexBounds
       else Except.ok (if i < 0 then i + L else i)) ∧
    regularizeIndexForLength i L = recordGetitemAt L i := by
  constructor
  · simp only [recordGetitemAt]
    split_ifs <;> first
      | rfl
      | (exfalso; omega)
  · rfl

/-- Claim C10: for every slice `(start, stop, step)` and known length `L`,
`regularise_slice` returns endpoints inside `[0, L]`, computed by defaulting
`None` to `0`/`L`, shifting negative endpoints by `L`, and clamping into
`[0, L]`; the step is unchanged apart from `None` defaulting to `1`. -/
theorem regulariseSliceNormalises (start? stop? step? : Option Int) (L : Nat) :
    regulariseSlice start? stop? step? L =
      (specClamp (specResolveEndpoint start? 0 L) L,
       specClamp (specResolveEndpoint stop? (L : Int) L) L,
       step?.getD 1) ∧
    0 ≤ (regulariseSlice start? stop? step? L).1 ∧
    (regulariseSlice start? stop? step? L).1 ≤ L ∧
    0 ≤ (regulariseSlice start? stop? step? L).2.1 ∧
    (regulariseSlice start? stop? step? L).2.1 ≤ L := by
  have heq : regulariseSlice start? stop? step? L =
      (specClamp (specResolveEndpoint start? 0 L) L,
       specClamp (specResolveEndpoint stop? (L : Int) L) L,
       step?.getD 1) := by
    cases start? <;> cases stop? <;> cases step? <;>
      simp only [regulariseSlice, specClamp, specResolveEndpoint, Option.getD_none,
        Option.getD_some, Prod.mk.injEq] <;>
      split_ifs <;>
      first
        | rfl
        | trivial
  refine ⟨heq, ?_, ?_, ?_, ?_⟩ <;> rw [heq] <;> simp only [specClamp] <;> omega

/-- A node length in the data model: a concrete value, or the
`unknown_length` marker of the shape-only (type-tracing) regime. -/
inductive MLength where
  | unknown
  | known (n : Nat)
  deriving Repr, DecidableEq

/-- The explicit `length` argument accepted by the `RecordArray` constructor
when it is not `None`: the unknown-length marker or an integer. -/
inductive LengthArg where
  | unknownArg
  | given (n : Int)
  deriving Repr, DecidableEq

/-- Failure modes of `RecordArray.__init__` length handling. -/
inductive InitErr where
  | lengthRequired
  | assertUnknown
  | contentTooShort
  | badLength
  deriving Repr, DecidableEq

/-- Translated from the shape-only inference loop of `RecordArray.__init__`
(`src/awkward/contents/recordarray.py`): the running length starts unset, the
first child sets it, any unknown child length ends the loop with `unknown`,
and otherwise the minimum is accumulated. -/
def inferLoop : Option MLength → List MLength → Option MLength
  | acc, [] => acc
  | none, .unknown :: _ => some .unknown
  | none, .known n :: rest => inferLoop (some (.known n)) rest
  | some _, .unknown :: _ => some .unknown
  | some .unknown, _ :: _ => some .unknown
  | some (.known n), .known m :: rest => inferLoop (some (.known (min n m))) rest

/-- Translated from the known-data inference loop of `RecordArray.__init__`:
every child length is asserted to be known and the minimum is accumulated. -/
def inferKnown : Option Nat → List MLength → Except InitErr (Option Nat)
  | acc, [] => .ok acc
  | _, .unknown :: _ => .error .assertUnknown
  | none, .known n :: rest => inferKnown (some n) rest
  | some l, .known n :: rest => inferKnown (some (min l n)) rest

/-- Translated from the length handling of `RecordArray.__init__`
(`src/awkward/contents/recordarray.py`): with no explicit length, zero
children fail and otherwise the length is inferred from the children by the
regime-specific loop; an explicit unknown length is accepted unchecked; an
explicit integer length first checks no known child is shorter, then that the
length is non-negative. -/
def recordInitLength (knownData : Bool) (childLens : List MLength)
    (length? : Option LengthArg) : Except InitErr MLength :=
  match length? with
  | none =>
    if childLens.isEmpty then .error .lengthRequired
    else if knownData then
      match inferKnown none childLens with
      | .error e => .error e
      | .ok none => .error .lengthRequired
      | .ok (some n) => .ok (.known n)
    else
      match inferLoop none childLens with
      | none => .error .lengthRequired
      | some l => .ok l
  | some .unknownArg => .ok .unknown
  | some (.given n) =>
    if childLens.any (fun c => match c with
        | .known m => decide ((m : Int) < n)
        | .unknown => false) then .error .contentTooShort
    else if 0 ≤ n then .ok (.known n.toNat) else .error .badLength

/-- The minimum of a nonempty list of child lengths, as the specification
words it (`0` for an empty list, which the claims never use). -/
def minimumOf : List Nat → Nat
  | [] => 0
  | n :: rest => rest.foldl min n

/-- The known-data inference loop accumulates the fold of `min`. -/
theorem inferKnown_map_known (ns : List Nat) :
    ∀ a : Nat, inferKnown (some a) (ns.map .known) = .ok (some (ns.foldl min a)) := by
  induction ns with
  | nil => intro a; rfl
  | cons n rest ih => intro a; simpa [inferKnown, List.foldl] using ih (min a n)

/-- The shape-only inference loop accumulates the fold of `min` when every
child length is known. -/
theorem inferLoop_map_known (ns : List Nat) :
    ∀ a : Nat, inferLoop (some (.known a)) (ns.map .known) =
      some (.known (ns.foldl min a)) := by
  induction ns with
  | nil => intro a; rfl
  | cons n rest ih => intro a; simpa [inferLoop, List.foldl] using ih (min a n)

/-- The shape-only inference loop answers `unknown` as soon as any child
length is unknown, whatever the accumulator holds. -/
theorem inferLoop_mem_unknown (ls : List MLength) (hmem : MLength.unknown ∈ ls) :
    ∀ acc, inferLoop acc ls = some .unknown := by
  induction ls with
  | nil => cases hmem
  | cons c rest ih =>
    intro acc
    rcases List.mem_cons.mp hmem with hc | hrest
    · cases hc
      cases acc with
      | none => rfl
      | some l => cases l <;> rfl
    · cases c with
      | unknown =>
        cases acc with
        | none => rfl
        | some l => cases l <;> rfl
      | known n =>
        cases acc with
        | none => exact ih hrest _
        | some l =>
          cases l with
          | unknown => rfl
          | known m => exact ih hrest _

/-- The known-data inference loop errors as soon as any child length is
unknown. -/
theorem inferKnown_mem_unknown (ls : List MLength) (hmem : MLength.unknown ∈ ls) :
    ∀ acc, inferKnown acc ls = .error .assertUnknown := by
  induction ls with
  | nil => cases hmem
  | cons c rest ih =>
    intro acc
    rcases List.mem_cons.mp hmem with hc | hrest
    · cases hc
      cases acc <;> rfl
    · cases c with
      | unknown => cases acc <;> rfl
      | known n =>
        cases acc with
        | none => exact ih hrest _
        | some l => exact ih hrest _

/-- Claim C2 fails as the specification states it: with child lengths
`[known 5, Unknown, known 3]` in the shape-only regime and no explicit length,
the later, concretely-known child length `3`, although strictly smaller, does
not win; the constructor loop stops at the first unknown child length and the
aggregate is Unknown, not `3`. -/
theorem recordLengthLaterKnownDoesNotWin :
    recordInitLength false [.known 5, .unknown, .known 3] none = .ok .unknown ∧
    recordInitLength false [.known 5, .unknown, .known 3] none ≠
      .ok (.known 3) := by
  have h0 : recordInitLength false [.known 5, .unknown, .known 3] none =
      .ok .unknown := rfl
  exact ⟨h0, by rw [h0]; simp⟩

/-- Claim C2, amended: for a `RecordArray` built with at least one child and
no explicit length, the inferred length is the minimum of the child lengths
when all of them are known (in either regime); when some child length is
Unknown, the aggregate is Unknown in the shape-only regime regardless of any
later, smaller known child, and the known-data regime fails an assertion. -/
theorem recordLengthInference (knownData : Bool) (ns : List Nat)
    (ls : List MLength) (hns : ns ≠ []) (hls : MLength.unknown ∈ ls) :
    recordInitLength knownData (ns.map .known) none = .ok (.known (minimumOf ns)) ∧
    recordInitLength false ls none = .ok .unknown ∧
    recordInitLength true ls none = .error .assertUnknown := by
  refine ⟨?_, ?_, ?_⟩
  · match ns, hns with
    | n :: rest, _ =>
      cases knownData <;>
        simp [recordInitLength, inferKnown, inferLoop, minimumOf,
          inferKnown_map_known, inferLoop_map_known]
  · have hne : ls ≠ [] := by rintro rfl; cases hls
    match ls, hls, hne with
    | c :: rest, hmem, _ =>
      rcases List.mem_cons.mp hmem with hc | hrest
      · cases hc
        simp [recordInitLength, inferLoop]
      · cases c with
        | unknown => simp [recordInitLength, inferLoop]
        | known n =>
          simp [recordInitLength, inferLoop, inferLoop_mem_unknown rest hrest]
  · have hne : ls ≠ [] := by rintro rfl; cases hls
    match ls, hls, hne with
    | c :: rest, hmem, _ =>
      rcases List.mem_cons.mp hmem with hc | hrest
      · cases hc
        simp [recordInitLength, inferKnown]
      · cases c with
        | unknown => simp [recordInitLength, inferKnown]
        | known n =>
          simp [recordInitLength, inferKnown, inferKnown_mem_unknown rest hrest]

/-- Witness for the amended Claim C2 at child lengths `[4, 2, 7]` (all known)
and `[known 4, Unknown]`. -/
theorem recordLengthInferenceWitness :
    recordInitLength true ([4, 2, 7].map .known) none = .ok (.known 2) ∧
    recordInitLength false [.known 4, .unknown] none = .ok .unknown ∧
    recordInitLength true [.known 4, .unknown] none = .error .assertUnknown :=
  recordLengthInference true [4, 2, 7] [.known 4, .unknown] (by decide) (by decide)

/-- Claim C8: a `RecordArray` with zero children and no explicit length fails
at construction in both regimes, while an explicit non-negative length makes
the zero-children construction succeed. -/
theorem recordZeroChildrenLength (knownData : Bool) (n : Nat) :
    recordInitLength knownData [] none = .error .lengthRequired ∧
    recordInitLength knownData [] (some (.given n)) = .ok (.known n) := by
  constructor
  · cases knownData <;> rfl
  · simp [recordInitLength]

/-- A slice item as it reaches `prepare_advanced_indexing`
(`src/awkward/_slicing.py`): the output universe of `normalise_item` — basic
items, flat integer index arrays, and the two structured (ragged or masked)
index Content kinds that survive normalisation, `ListOffsetArray` and
`IndexedOptionArray`. -/
inductive NItem where
  | intItem (n : Int)
  | sliceItem
  | strItem (s : String)
  | strListItem (ss : List String)
  | newaxisItem
  | ellipsisItem
  | arrayItem (xs : List Int)
  | boolArrayItem (xs : List Bool)
  | raggedItem (offsets : List Nat) (content : List Int)
  | optionItem (index : List Int) (content : List Int)
  deriving Repr, DecidableEq

/-- True for the items the source counts as Awkward index Contents. -/
def NItem.isContent : NItem → Bool
  | .raggedItem _ _ => true
  | .optionItem _ _ => true
  | _ => false

/-- True for the items the first scan of `prepare_advanced_indexing` leaves
out of its `broadcastable` list: slices, string lists, the two Content kinds,
strings, newaxis and ellipsis. -/
def NItem.isNonBroadcastable : NItem → Bool
  | .sliceItem => true
  | .strListItem _ => true
  | .raggedItem _ _ => true
  | .optionItem _ _ => true
  | .strItem _ => true
  | .newaxisItem => true
  | .ellipsisItem => true
  | _ => false

/-- True for the broadcastable items as the claim words them: integers and
flat arrays. -/
def NItem.isBroadcastable : NItem → Bool
  | .intItem _ => true
  | .arrayItem _ => true
  | .boolArrayItem _ => true
  | _ => false

/-- Translated from the first scan of `prepare_advanced_indexing`
(`src/awkward/_slicing.py`): count the Awkward Contents among the items and
collect the broadcastable items in order. -/
def scanIndexItems (items : List NItem) : Nat × List NItem :=
  items.foldl
    (fun acc item =>
      let n := if item.isContent then acc.1 + 1 else acc.1
      let bs := if item.isNonBroadcastable then acc.2 else acc.2 ++ [item]
      (n, bs))
    (0, [])

/-- Translated from the mixing check of `prepare_advanced_indexing`: `true`
exactly when the source raises its `ValueError` (the
`IncompatibleIndexingMode` signal of the error taxonomy). -/
def mixesIndexingModes (items : List NItem) : Bool :=
  let scanned := scanIndexItems items
  decide (1 < scanned.1) ||
    (decide (scanned.1 = 1) && decide (scanned.2.length ≠ 0))

/-- The first scan of `prepare_advanced_indexing` computes the count of
Content items and the sublist of broadcastable items. -/
theorem scanIndexItems_eq (items : List NItem) :
    scanIndexItems items =
      (items.countP NItem.isContent,
       items.filter (fun i => !i.isNonBroadcastable)) := by
  have aux : ∀ (l : List NItem) (n0 : Nat) (bs0 : List NItem),
      l.foldl
        (fun acc item =>
          let n := if item.isContent then acc.1 + 1 else acc.1
          let bs := if item.isNonBroadcastable then acc.2 else acc.2 ++ [item]
          (n, bs))
        (n0, bs0) =
        (n0 + l.countP NItem.isContent,
         bs0 ++ l.filter (fun i => !i.isNonBroadcastable)) := by
    intro l
    induction l with
    | nil => intro n0 bs0; simp
    | cons x xs ih =>
      intro n0 bs0
      simp only [List.foldl_cons, List.countP_cons, List.filter_cons, ih]
      by_cases hc : x.isContent <;> by_cases hb : x.isNonBroadcastable <;>
        simp [hc, hb] <;> omega
  simpa using aux items 0 []

/-- Claim C4: the index normalizer rejects, with `IncompatibleIndexingMode`,
exactly the index expressions that contain more than one structured
(ragged or masked) index Content, or exactly one structured Content together
with at least one other broadcastable array or integer item; all other
expressions pass this check. -/
theorem incompatibleIndexingModeRejection (items : List NItem) :
    mixesIndexingModes items = true ↔
      (1 < items.countP NItem.isContent ∨
       (items.countP NItem.isContent = 1 ∧
        1 ≤ items.countP NItem.isBroadcastable)) := by
  have hfilter : (items.filter (fun i => !i.isNonBroadcastable)).length =
      items.countP NItem.isBroadcastable := by
    rw [← List.countP_eq_length_filter]
    apply List.countP_congr
    intro a _
    cases a <;> rfl
  simp only [mixesIndexingModes, scanIndexItems_eq, hfilter, Bool.or_eq_true,
    Bool.and_eq_true, decide_eq_true_eq]
  omega

/-- An item of the prepared index sequence after the broadcasting step of
`prepare_advanced_indexing` (`src/awkward/_slicing.py`): broadcast arrays
have become flat `Index64` objects, scalars have become integers, and the
structured Contents pass through untouched. -/
inductive PreparedItem where
  | intItem (n : Int)
  | sliceItem
  | strItem (s : String)
  | strListItem (ss : List String)
  | newaxisItem
  | ellipsisItem
  | index64 (xs : List Int)
  | raggedItem (offsets : List Nat) (content : List Int)
  | optionItem (index : List Int) (content : List Int)
  deriving Repr, DecidableEq

/-- True for `ak.index.Index` instances, the flat array indices of the
prepared sequence. -/
def PreparedItem.isIndex : PreparedItem → Bool
  | .index64 _ => true
  | _ => false

/-- True for the separator items of the trailing state machine: a null-axis
marker (newaxis), an ellipsis, or a range (slice). -/
def PreparedItem.isSeparator : PreparedItem → Bool
  | .newaxisItem => true
  | .ellipsisItem => true
  | .sliceItem => true
  | _ => false

/-- Consume items up to and including the first one satisfying `p`, returning
the rest; this is what each loop of the source state machine leaves in the
shared iterator. -/
def dropThrough {α : Type} (p : α → Bool) : List α → List α
  | [] => []
  | x :: xs => if p x then xs else dropThrough p xs

/-- Translated from the trailing finite-state machine of
`prepare_advanced_indexing` (`src/awkward/_slicing.py`): scan for an array
index, then for a separator, and reject when yet another array index
follows. -/
def fsmRejects (items : List PreparedItem) : Bool :=
  (dropThrough PreparedItem.isSeparator
      (dropThrough PreparedItem.isIndex items)).any PreparedItem.isIndex

/-- The pattern the claim forbids: an array index followed, after an
intervening separator, by a second array index. -/
def SeparatedIndexPattern (items : List PreparedItem) : Prop :=
  ∃ (l₁ l₂ l₃ l₄ : List PreparedItem) (a b c : PreparedItem),
    items = l₁ ++ a :: (l₂ ++ b :: (l₃ ++ c :: l₄)) ∧
    a.isIndex = true ∧ b.isSeparator = true ∧ c.isIndex = true

/-- A predicate preserved by prepending extends from a suffix to the whole
list. -/
theorem prop_append {α : Type} (G : List α → Prop)
    (hmono : ∀ x xs, G xs → G (x :: xs)) (ys l : List α) (h : G l) :
    G (ys ++ l) := by
  induction ys with
  | nil => simpa using h
  | cons y ys ih => exact hmono y _ ih

/-- Characterisation of a suffix-monotone predicate holding after
`dropThrough`: the list splits at an element satisfying `p` whose tail
satisfies the predicate. -/
theorem dropThrough_prop {α : Type} (p : α → Bool) (G : List α → Prop)
    (hnil : ¬ G []) (hmono : ∀ x xs, G xs → G (x :: xs)) :
    ∀ l : List α, (G (dropThrough p l) ↔
      ∃ l₁ b l₂, l = l₁ ++ b :: l₂ ∧ p b = true ∧ G l₂) := by
  intro l
  induction l with
  | nil =>
    constructor
    · intro h; exact absurd h hnil
    · rintro ⟨l₁, b, l₂, h, -, -⟩; exact absurd h (by simp)
  | cons x xs ih =>
    by_cases hx : p x = true
    · simp only [dropThrough, if_pos hx]
      constructor
      · intro h; exact ⟨[], x, xs, rfl, hx, h⟩
      · rintro ⟨l₁, b, l₂, heq, hb, hG⟩
        cases l₁ with
        | nil =>
          simp only [List.nil_append, List.cons.injEq] at heq
          exact heq.2 ▸ hG
        | cons y ys =>
          simp only [List.cons_append, List.cons.injEq] at heq
          exact heq.2 ▸ prop_append G hmono ys (b :: l₂) (hmono b l₂ hG)
    · simp only [dropThrough, if_neg hx]
      rw [ih]
      constructor
      · rintro ⟨l₁, b, l₂, heq, hb, hG⟩
        exact ⟨x :: l₁, b, l₂, by rw [List.cons_append, heq], hb, hG⟩
      · rintro ⟨l₁, b, l₂, heq, hb, hG⟩
        cases l₁ with
        | nil =>
          simp only [List.nil_append, List.cons.injEq] at heq
          exact absurd (heq.1 ▸ hb) hx
        | cons y ys =>
          simp only [List.cons_append, List.cons.injEq] at heq
          exact ⟨ys, b, l₂, heq.2, hb, hG⟩

/-- A list has an element satisfying `p` exactly when it splits around such
an element. -/
theorem any_split {α : Type} (p : α → Bool) (l : List α) :
    l.any p = true ↔ ∃ l₁ c l₂, l = l₁ ++ c :: l₂ ∧ p c = true := by
  rw [List.any_eq_true]
  constructor
  · rintro ⟨x, hmem, hx⟩
    obtain ⟨s, t, rfl⟩ := List.append_of_mem hmem
    exact ⟨s, x, t, rfl, hx⟩
  · rintro ⟨l₁, c, l₂, rfl, hc⟩
    exact ⟨c, by simp, hc⟩

/-- Claim C9: after broadcasting, `prepare_advanced_indexing` fails (with the
`StructuralTypeError` signal) on exactly the prepared sequences in which a
second array index occurs after a first array index with a null-axis marker,
ellipsis, or slice between them; sequences without this pattern pass the
state machine. -/
theorem separatedArrayIndexRejection (items : List PreparedItem) :
    fsmRejects items = true ↔ SeparatedIndexPattern items := by
  have hmono_any : ∀ (x : PreparedItem) (xs : List PreparedItem),
      xs.any PreparedItem.isIndex = true →
      (x :: xs).any PreparedItem.isIndex = true := by
    intro x xs h; simp [List.any_cons, h]
  have hG1 : ∀ l : List PreparedItem,
      ((dropThrough PreparedItem.isSeparator l).any PreparedItem.isIndex = true ↔
        ∃ l₂ b l₃, l = l₂ ++ b :: l₃ ∧ b.isSeparator = true ∧
          l₃.any PreparedItem.isIndex = true) :=
    dropThrough_prop PreparedItem.isSeparator
      (fun l => l.any PreparedItem.isIndex = true) (by simp) hmono_any
  have hmono_G1 : ∀ (x : PreparedItem) (xs : List PreparedItem),
      ((dropThrough PreparedItem.isSeparator xs).any PreparedItem.isIndex = true) →
      ((dropThrough PreparedItem.isSeparator (x :: xs)).any
          PreparedItem.isIndex = true) := by
    intro x xs h
    by_cases hx : x.isSeparator = true
    · simp only [dropThrough, if_pos hx]
      rw [hG1] at h
      obtain ⟨l₂, b, l₃, rfl, hb, hany⟩ := h
      rw [List.any_append]
      simp [List.any_cons, hany]
    · simpa only [dropThrough, if_neg hx] using h
  have hnil_G1 :
      ¬ ((dropThrough PreparedItem.isSeparator
            ([] : List PreparedItem)).any PreparedItem.isIndex = true) := by
    simp [dropThrough]
  rw [show fsmRejects items =
        ((fun l => (dropThrough PreparedItem.isSeparator l).any
            PreparedItem.isIndex) (dropThrough PreparedItem.isIndex items)) from rfl]
  rw [dropThrough_prop PreparedItem.isIndex
    (fun l => (dropThrough PreparedItem.isSeparator l).any
        PreparedItem.isIndex = true) hnil_G1 hmono_G1 items]
  constructor
  · rintro ⟨l₁, a, rest, rfl, ha, hG⟩
    rw [hG1] at hG
    obtain ⟨l₂, b, l₃, rfl, hb, hany⟩ := hG
    rw [any_split] at hany
    obtain ⟨l₃a, c, l₄, rfl, hc⟩ := hany
    exact ⟨l₁, l₂, l₃a, l₄, a, b, c, rfl, ha, hb, hc⟩
  · rintro ⟨l₁, l₂, l₃, l₄, a, b, c, rfl, ha, hb, hc⟩
    refine ⟨l₁, a, l₂ ++ b :: (l₃ ++ c :: l₄), rfl, ha, ?_⟩
    rw [hG1]
    refine ⟨l₂, b, l₃ ++ c :: l₄, rfl, hb, ?_⟩
    rw [any_split]
    exact ⟨l₃, c, l₄, rfl, hc⟩

/-- Buffer attribute names of the buffer container protocol. -/
inductive Attr where
  | dataA
  | offsetsA
  | startsA
  | stopsA
  | indexA
  | maskA
  deriving Repr, DecidableEq, BEq

/-- A data-free Form node mirroring a Content tree; each node carries the
integer form key from which buffer keys are derived.  The modelled node kinds
are Empty, Flat (one-dimensional Numpy), Regular, List (start/stop),
ListOffset, Indexed, IndexedOption, ByteMasked, Unmasked and Record. -/
inductive Form where
  | emptyF (key : Nat)
  | numpyF (key : Nat)
  | regularF (size : Nat) (content : Form) (key : Nat)
  | listF (content : Form) (key : Nat)
  | listOffsetF (content : Form) (key : Nat)
  | indexedF (content : Form) (key : Nat)
  | indexedOptionF (content : Form) (key : Nat)
  | byteMaskedF (validWhen : Bool) (content : Form) (key : Nat)
  | unmaskedF (content : Form) (key : Nat)
  | recordF (fields : Option (List String)) (contents : List Form) (key : Nat)
  deriving Repr

/-- A Content tree node (data model of §3) with its integer buffers inline;
the same node kinds as `Form`.  A Record is a tuple when `fields` is `none`. -/
inductive Content where
  | empty
  | numpy (data : List Int)
  | regular (content : Content) (size : Nat) (length : Nat)
  | listS (starts stops : List Int) (content : Content)
  | listOffset (offsets : List Int) (content : Content)
  | indexed (index : List Int) (content : Content)
  | indexedOption (index : List Int) (content : Content)
  | byteMasked (mask : List Int) (content : Content) (validWhen : Bool)
  | unmasked (content : Content)
  | record (contents : List Content) (fields : Option (List String)) (length : Nat)
  deriving Repr

/-- The `length` attribute of each Content variant. -/
def contentLength : Content → Nat
  | .empty => 0
  | .numpy data => data.length
  | .regular _ _ len => len
  | .listS starts _ _ => starts.length
  | .listOffset offsets _ => offsets.length - 1
  | .indexed index _ => index.length
  | .indexedOption index _ => index.length
  | .byteMasked mask _ _ => mask.length
  | .unmasked c => contentLength c
  | .record _ _ len => len

/-- A buffer container: a mapping from `(form key, attribute)` to raw integer
buffers, as produced by the default `"{form_key}-{attribute}"` key format. -/
abbrev Container := List ((Nat × Attr) × List Int)

/-- Errors of the buffer codec. -/
inductive RecErr where
  | missingBuffer
  | bufferTooShort
  | emptyFormNonzeroLength
  | emptyReduction
  deriving Repr, DecidableEq

/-- Lookup of a named buffer in the container (`container[getkey(form, attr)]`
in the source). -/
def lookupBuf (container : Container) (k : Nat × Attr) :
    Except RecErr (List Int) :=
  match container with
  | [] => .error .missingBuffer
  | (k2, buf) :: rest => if k2 = k then .ok buf else lookupBuf rest k

/-- Translated from `_from_buffer` (`src/awkward/operations/ak_from_buffers.py`):
error when the stored buffer holds fewer than `count` elements, otherwise view
exactly the first `count` elements. -/
def fromBufferCount (buf : List Int) (count : Nat) : Except RecErr (List Int) :=
  if buf.length < count then .error .bufferTooShort else .ok (buf.take count)

/-- The maximum of a list of integers (`np.max`); the `[]` case is never
reached because every call site guards on non-emptiness — `np.max` of an
empty array raises, which the call sites model with explicit errors. -/
def listMax : List Int → Int
  | [] => 0
  | x :: xs => xs.foldl max x

/-- The stops of the non-empty sublists: `stops[starts != stops]` in the
source's List branch. -/
def nonEmptyStops (starts stops : List Int) : List Int :=
  ((starts.zip stops).filter (fun p => p.1 != p.2)).map Prod.snd

mutual

/-- Translated from `reconstitute` (`src/awkward/operations/ak_from_buffers.py`):
walk the Form top-down, pulling named buffers from the container and
reconstituting each child with a length derived from the just-read buffer.
In the List branch, `np.max` of the empty reduced-stops selection (which
raises in the source) is the `emptyReduction` error; a negative derived child
length (excluded by the index invariants) is clamped by `Int.toNat`. -/
def reconstitute (container : Container) : Form → Nat → Except RecErr Content
  | .emptyF _, length =>
    if length ≠ 0 then .error .emptyFormNonzeroLength else .ok .empty
  | .numpyF key, length => do
    let raw ← lookupBuf container (key, .dataA)
    let data ← fromBufferCount raw length
    .ok (.numpy data)
  | .unmaskedF f _, length => do
    let c ← reconstitute container f length
    .ok (.unmasked c)
  | .byteMaskedF validWhen f key, length => do
    let raw ← lookupBuf container (key, .maskA)
    let mask ← fromBufferCount raw length
    let c ← reconstitute container f length
    .ok (.byteMasked mask c validWhen)
  | .indexedOptionF f key, length => do
    let raw ← lookupBuf container (key, .indexA)
    let index ← fromBufferCount raw length
    let nextLength := if index.isEmpty then 0 else (max 0 (listMax index + 1)).toNat
    let c ← reconstitute container f nextLength
    .ok (.indexedOption index c)
  | .indexedF f key, length => do
    let raw ← lookupBuf container (key, .indexA)
    let index ← fromBufferCount raw length
    let nextLength := if index.isEmpty then 0 else (listMax index + 1).toNat
    let c ← reconstitute container f nextLength
    .ok (.indexed index c)
  | .listF f key, length => do
    let rawStarts ← lookupBuf container (key, .startsA)
    let rawStops ← lookupBuf container (key, .stopsA)
    let starts ← fromBufferCount rawStarts length
    let stops ← fromBufferCount rawStops length
    let reducedStops := nonEmptyStops starts stops
    let nextLength ←
      if starts.isEmpty then Except.ok 0
      else if reducedStops.isEmpty then Except.error RecErr.emptyReduction
      else Except.ok (listMax reducedStops).toNat
    let c ← reconstitute container f nextLength
    .ok (.listS starts stops c)
  | .listOffsetF f key, length => do
    let raw ← lookupBuf container (key, .offsetsA)
    let offsets ← fromBufferCount raw (length + 1)
    let nextLength :=
      if offsets.length == 1 then 0 else (offsets.getLast?.getD 0).toNat
    let c ← reconstitute container f nextLength
    .ok (.listOffset offsets c)
  | .regularF size f _, length => do
    let c ← reconstitute container f (length * size)
    .ok (.regular c size length)
  | .recordF fields fs _, length => do
    let cs ← reconstituteAll container fs length
    .ok (.record cs fields length)

/-- Reconstitution of every child of a Record form with the same length. -/
def reconstituteAll (container : Container) :
    List Form → Nat → Except RecErr (List Content)
  | [], _ => .ok []
  | f :: fs, length => do
    let c ← reconstitute container f length
    let cs ← reconstituteAll container fs length
    .ok (c :: cs)

end

mutual

/-- Modelled from the spec (§4.5 and §6): `to_buffers` decomposition of a tree
into a Form and named buffers keyed by `(form key, attribute)`, with form keys
assigned by depth-first numbering from a counter; `ak_to_buffers.py` is not
under `src/`.  The Record case follows `RecordArray._to_buffers`
(`src/awkward/contents/recordarray.py`): a Record stores no buffer of its own
and decomposes every child. -/
def decompose : Content → Nat → Form × Nat × Container
  | .empty, k => (.emptyF k, k + 1, [])
  | .numpy data, k => (.numpyF k, k + 1, [((k, .dataA), data)])
  | .regular c size _, k =>
    let r := decompose c (k + 1)
    (.regularF size r.1 k, r.2.1, r.2.2)
  | .listS starts stops c, k =>
    let r := decompose c (k + 1)
    (.listF r.1 k, r.2.1,
      ((k, .startsA), starts) :: ((k, .stopsA), stops) :: r.2.2)
  | .listOffset offsets c, k =>
    let r := decompose c (k + 1)
    (.listOffsetF r.1 k, r.2.1, ((k, .offsetsA), offsets) :: r.2.2)
  | .indexed index c, k =>
    let r := decompose c (k + 1)
    (.indexedF r.1 k, r.2.1, ((k, .indexA), index) :: r.2.2)
  | .indexedOption index c, k =>
    let r := decompose c (k + 1)
    (.indexedOptionF r.1 k, r.2.1, ((k, .indexA), index) :: r.2.2)
  | .byteMasked mask c validWhen, k =>
    let r := decompose c (k + 1)
    (.byteMaskedF validWhen r.1 k, r.2.1, ((k, .maskA), mask) :: r.2.2)
  | .unmasked c, k =>
    let r := decompose c (k + 1)
    (.unmaskedF r.1 k, r.2.1, r.2.2)
  | .record cs fields _, k =>
    let r := decomposeAll cs (k + 1)
    (.recordF fields r.1 k, r.2.1, r.2.2)

/-- Decomposition of a list of sibling children, threading the key counter
and concatenating their buffers. -/
def decomposeAll : List Content → Nat → List Form × Nat × Container
  | [], k => ([], k, [])
  | c :: cs, k =>
    let r := decompose c k
    let rs := decomposeAll cs r.2.1
    (r.1 :: rs.1, rs.2.1, r.2.2 ++ rs.2.2)

end

/-- Modelled from the spec: `to_buffers(x)` returns the Form, the length of
`x`, and the buffer container. -/
def toBuffersTriple (x : Content) : Form × Nat × Container :=
  ((decompose x 0).1, contentLength x, (decompose x 0).2.2)

/-- A fully materialised nested value. -/
inductive Value where
  | intV (n : Int)
  | listV (xs : List Value)
  | missingV
  | recordV (fields : Option (List String)) (xs : List Value)
  deriving Repr

mutual

/-- Modelled from the spec (§3): the logical nested value of a node, one value
per element; buffer entries outside the ranges permitted by the data-model
invariants materialise as `missingV` placeholders (the invariants exclude
them). -/
def toValues : Content → List Value
  | .empty => []
  | .numpy data => data.map .intV
  | .regular c size len =>
    (List.range len).map (fun i =>
      .listV (((toValues c).drop (i * size)).take size))
  | .listS starts stops c =>
    (starts.zip stops).map (fun p =>
      .listV (((toValues c).drop p.1.toNat).take (p.2 - p.1).toNat))
  | .listOffset offsets c =>
    (offsets.zip offsets.tail).map (fun p =>
      .listV (((toValues c).drop p.1.toNat).take (p.2 - p.1).toNat))
  | .indexed index c =>
    index.map (fun i => (toValues c).getD i.toNat .missingV)
  | .indexedOption index c =>
    index.map (fun i =>
      if i < 0 then .missingV else (toValues c).getD i.toNat .missingV)
  | .byteMasked mask c validWhen =>
    (List.range mask.length).map (fun i =>
      if (mask.getD i 0 != 0) = validWhen then (toValues c).getD i .missingV
      else .missingV)
  | .unmasked c => toValues c
  | .record cs fields len =>
    (List.range len).map (fun i =>
      .recordV fields ((toValuesAll cs).map (fun vs => vs.getD i .missingV)))

/-- The values of a list of sibling children. -/
def toValuesAll : List Content → List (List Value)
  | [] => []
  | c :: cs => toValues c :: toValuesAll cs

end

/-- A successful `_from_buffer` read returns exactly `count` elements. -/
theorem fromBufferCount_length (buf : List Int) (count : Nat) (data : List Int)
    (h : fromBufferCount buf count = .ok data) : data.length = count := by
  unfold fromBufferCount at h
  split at h
  · cases h
  · next hge =>
    cases h
    simp only [List.length_take]
    omega

/-- Inversion of a successful `Except` bind. -/
theorem exceptBind_ok {ε α β : Type} {x : Except ε α} {f : α → Except ε β} {y : β}
    (h : (x >>= f) = Except.ok y) : ∃ a, x = Except.ok a ∧ f a = Except.ok y := by
  cases x with
  | error e => exact absurd h (by simp [Bind.bind, Except.bind])
  | ok a => exact ⟨a, rfl, by simpa [Bind.bind, Except.bind] using h⟩

/-- Reconstitution honours the requested length: a node reconstituted with
length `L` has length `L`. -/
theorem reconstituteLength :
    ∀ (f : Form) (container : Container) (L : Nat) (y : Content),
      reconstitute container f L = .ok y → contentLength y = L := by
  intro f
  match f with
  | .emptyF k =>
    intro c L y h
    simp only [reconstitute] at h
    split at h
    · cases h
    · next hz => cases h; simp only [contentLength]; omega
  | .numpyF k =>
    intro c L y h
    simp only [reconstitute] at h
    obtain ⟨raw, hraw, h⟩ := exceptBind_ok h
    obtain ⟨data, hdata, h⟩ := exceptBind_ok h
    cases h
    exact fromBufferCount_length raw L _ hdata
  | .unmaskedF f k =>
    intro c L y h
    simp only [reconstitute] at h
    obtain ⟨child, hchild, h⟩ := exceptBind_ok h
    cases h
    simpa only [contentLength] using reconstituteLength f c L _ hchild
  | .byteMaskedF validWhen f k =>
    intro c L y h
    simp only [reconstitute] at h
    obtain ⟨raw, hraw, h⟩ := exceptBind_ok h
    obtain ⟨mask, hmask, h⟩ := exceptBind_ok h
    obtain ⟨child, hchild, h⟩ := exceptBind_ok h
    cases h
    exact fromBufferCount_length raw L _ hmask
  | .indexedOptionF f k =>
    intro c L y h
    simp only [reconstitute] at h
    obtain ⟨raw, hraw, h⟩ := exceptBind_ok h
    obtain ⟨index, hidx, h⟩ := exceptBind_ok h
    obtain ⟨child, hchild, h⟩ := exceptBind_ok h
    cases h
    exact fromBufferCount_length raw L _ hidx
  | .indexedF f k =>
    intro c L y h
    simp only [reconstitute] at h
    obtain ⟨raw, hraw, h⟩ := exceptBind_ok h
    obtain ⟨index, hidx, h⟩ := exceptBind_ok h
    obtain ⟨child, hchild, h⟩ := exceptBind_ok h
    cases h
    exact fromBufferCount_length raw L _ hidx
  | .listF f k =>
    intro c L y h
    simp only [reconstitute] at h
    obtain ⟨raw1, hraw1, h⟩ := exceptBind_ok h
    obtain ⟨raw2, hraw2, h⟩ := exceptBind_ok h
    obtain ⟨starts, hstarts, h⟩ := exceptBind_ok h
    obtain ⟨stops, hstops, h⟩ := exceptBind_ok h
    split at h
    · obtain ⟨nl, hnl, h⟩ := exceptBind_ok h
      obtain ⟨child, hchild, h⟩ := exceptBind_ok h
      cases h
      exact fromBufferCount_length raw1 L _ hstarts
    · split at h
      · obtain ⟨nl, hnl, h⟩ := exceptBind_ok h
        cases hnl
      · obtain ⟨nl, hnl, h⟩ := exceptBind_ok h
        obtain ⟨child, hchild, h⟩ := exceptBind_ok h
        cases h
        exact fromBufferCount_length raw1 L _ hstarts
  | .listOffsetF f k =>
    intro c L y h
    simp only [reconstitute] at h
    obtain ⟨raw, hraw, h⟩ := exceptBind_ok h
    obtain ⟨offsets, hoff, h⟩ := exceptBind_ok h
    obtain ⟨child, hchild, h⟩ := exceptBind_ok h
    cases h
    have := fromBufferCount_length raw (L + 1) _ hoff
    simp only [contentLength]
    omega
  | .regularF size f k =>
    intro c L y h
    simp only [reconstitute] at h
    obtain ⟨child, hchild, h⟩ := exceptBind_ok h
    cases h
    rfl
  | .recordF fields fs k =>
    intro c L y h
    simp only [reconstitute] at h
    obtain ⟨cs, hcs, h⟩ := exceptBind_ok h
    cases h
    rfl


theorem listFormChildLengthCounterexample :
    reconstitute
        [((0, .startsA), [0, 7]), ((0, .stopsA), [3, 7]),
         ((1, .dataA), [10, 20, 30, 40, 50, 60, 70])]
        (.listF (.numpyF 1) 0) 2 =
      .ok (.listS [0, 7] [3, 7] (.numpy [10, 20, 30])) ∧
    contentLength (.numpy [10, 20, 30]) ≠ (listMax [3, 7]).toNat := by
  constructor
  · simp [reconstitute, lookupBuf, fromBufferCount, nonEmptyStops, listMax,
      List.lookup, bind, Except.bind]
  · decide

/-- Claim C7, amended: when the Buffer Codec reconstitutes a List
(start/stop) form of length `L`, it reads `L` starts and `L` stops, and
recurses into the child with length equal to the maximum stop among the
sublists whose start differs from their stop (for `L > 0`; among such
sublists, which then must exist), and with child length `0` for `L = 0`. -/
theorem listFormChildLength (container : Container) (f : Form) (k L : Nat)
    (starts stops : List Int) (child : Content)
    (h : reconstitute container (.listF f k) L = .ok (.listS starts stops child)) :
    starts.length = L ∧ stops.length = L ∧
    (L = 0 → contentLength child = 0) ∧
    (0 < L → nonEmptyStops starts stops ≠ [] ∧
      contentLength child = (listMax (nonEmptyStops starts stops)).toNat) := by
  simp only [reconstitute] at h
  obtain ⟨raw1, hraw1, h⟩ := exceptBind_ok h
  obtain ⟨raw2, hraw2, h⟩ := exceptBind_ok h
  obtain ⟨starts2, hstarts, h⟩ := exceptBind_ok h
  obtain ⟨stops2, hstops, h⟩ := exceptBind_ok h
  have hlen1 := fromBufferCount_length raw1 L _ hstarts
  have hlen2 := fromBufferCount_length raw2 L _ hstops
  split at h
  · next hempty =>
    obtain ⟨nl, hnl, h⟩ := exceptBind_ok h
    obtain ⟨child2, hchild, h⟩ := exceptBind_ok h
    cases h
    cases hnl
    have hL : L = 0 := by
      rw [List.isEmpty_iff] at hempty
      subst hempty
      simpa using hlen1.symm
    exact ⟨hlen1, hlen2, fun _ => reconstituteLength f container 0 _ hchild,
      fun hpos => absurd hL (by omega)⟩
  · next hnonempty =>
    split at h
    · obtain ⟨nl, hnl, h⟩ := exceptBind_ok h
      cases hnl
    · next hred =>
      obtain ⟨nl, hnl, h⟩ := exceptBind_ok h
      obtain ⟨child2, hchild, h⟩ := exceptBind_ok h
      cases h
      cases hnl
      refine ⟨hlen1, hlen2, ?_, ?_⟩
      · intro hL
        subst hL
        rw [List.isEmpty_iff] at hnonempty
        exact absurd (List.length_eq_zero.mp hlen1) hnonempty
      · intro _
        rw [List.isEmpty_iff] at hred
        exact ⟨hred, reconstituteLength f container _ _ hchild⟩

/-- Witness for the amended Claim C7 at the concrete List form of length 2
over starts `[0, 7]` and stops `[3, 7]`. -/
theorem listFormChildLengthWitness :
    ([0, 7] : List Int).length = 2 ∧ ([3, 7] : List Int).length = 2 ∧
    (2 = 0 → contentLength (.numpy [10, 20, 30]) = 0) ∧
    (0 < 2 → nonEmptyStops [0, 7] [3, 7] ≠ [] ∧
      contentLength (.numpy [10, 20, 30]) =
        (listMax (nonEmptyStops [0, 7] [3, 7])).toNat) :=
  listFormChildLength
    [((0, .startsA), [0, 7]), ((0, .stopsA), [3, 7]),
     ((1, .dataA), [10, 20, 30, 40, 50, 60, 70])]
    (.numpyF 1) 0 2 [0, 7] [3, 7] (.numpy [10, 20, 30])
    (by simp [reconstitute, lookupBuf, fromBufferCount, nonEmptyStops, listMax,
      List.lookup, bind, Except.bind])

/-- Claim C1 meets a code bug: the logically valid one-element tree `[[]]`
(a List node with `starts = [0]`, `stops = [0]` over an empty Flat child)
decomposes into Form, length and buffers, but reconstituting those buffers
fails — the source calls `np.max` on the empty `stops[starts != stops]`
selection, which raises — so `from_buffers(to_buffers(x))` does not reproduce
the nested value `[[]]`. -/
theorem roundTripAllEmptyListFails :
    toValues (.listS [0] [0] (.numpy [])) = [.listV []] ∧
    toBuffersTriple (.listS [0] [0] (.numpy [])) =
      (.listF (.numpyF 1) 0, 1,
       [((0, .startsA), [0]), ((0, .stopsA), [0]), ((1, .dataA), [])]) ∧
    reconstitute
        [((0, .startsA), [0]), ((0, .stopsA), [0]), ((1, .dataA), [])]
        (.listF (.numpyF 1) 0) 1 =
      .error .emptyReduction := by
  refine ⟨?_, ?_, ?_⟩
  · simp [toValues]
  · simp [toBuffersTriple, decompose, contentLength]
  · simp [reconstitute, lookupBuf, fromBufferCount, nonEmptyStops,
      List.lookup, bind, Except.bind]

mutual

/-- Structural constructor depth of a Content tree, with the children of a
Record summed; the termination measure of the merge recursion (trimming a
node preserves it). -/
def depth : Content → Nat
  | .empty => 1
  | .numpy _ => 1
  | .regular c _ _ => 1 + depth c
  | .listS _ _ c => 1 + depth c
  | .listOffset _ c => 1 + depth c
  | .indexed _ c => 1 + depth c
  | .indexedOption _ c => 1 + depth c
  | .byteMasked _ c _ => 1 + depth c
  | .unmasked c => 1 + depth c
  | .record cs _ _ => 1 + depthList cs

/-- Summed depth of a list of sibling children. -/
def depthList : List Content → Nat
  | [] => 0
  | c :: cs => depth c + depthList cs

end

mutual

/-- Modelled from the spec (§4.1, index-over-range) and, for Records,
translated from `RecordArray._getitem_range`
(`src/awkward/contents/recordarray.py`): the prefix restriction
`node[0 : n]`, as `_mergemany` uses it to trim each operand and its
children. -/
def trim : Content → Nat → Content
  | .empty, _ => .empty
  | .numpy data, n => .numpy (data.take n)
  | .regular c size len, n => .regular (trim c (min n len * size)) size (min n len)
  | .listS starts stops c, n => .listS (starts.take n) (stops.take n) c
  | .listOffset offsets c, n => .listOffset (offsets.take (n + 1)) c
  | .indexed index c, n => .indexed (index.take n) c
  | .indexedOption index c, n => .indexedOption (index.take n) c
  | .byteMasked mask c validWhen, n => .byteMasked (mask.take n) c validWhen
  | .unmasked c, n => .unmasked (trim c n)
  | .record cs fields len, n => .record (trimList cs (min n len)) fields (min n len)

/-- Trimming of a Record's children to a common prefix length. -/
def trimList : List Content → Nat → List Content
  | [], _ => []
  | c :: cs, n => trim c n :: trimList cs n

end

/-- Every Content node has positive depth. -/
theorem depth_pos (c : Content) : 1 ≤ depth c := by
  cases c <;> simp [depth]

mutual

/-- Trimming preserves the depth of a node. -/
theorem depth_trim (c : Content) (n : Nat) : depth (trim c n) = depth c := by
  cases c <;> simp [trim, depth] <;>
    first
      | apply depth_trim
      | apply depthList_trimList

/-- Trimming preserves the summed depth of a list of children. -/
theorem depthList_trimList (cs : List Content) (n : Nat) :
    depthList (trimList cs n) = depthList cs := by
  cases cs with
  | nil => rfl
  | cons c rest => simp [trimList, depthList, depth_trim c n, depthList_trimList rest n]

end

/-- A member of a child list is bounded by the summed depth. -/
theorem depth_mem_le (cs : List Content) (c : Content) (h : c ∈ cs) :
    depth c ≤ depthList cs := by
  induction cs with
  | nil => cases h
  | cons x rest ih =>
    rcases List.mem_cons.mp h with hc | hrest
    · subst hc; simp [depthList]
    · have := ih hrest
      simp only [depthList]
      omega

/-- Translated from the `fields` property of `RecordArray`
(`src/awkward/contents/recordarray.py`): a tuple's field names are the
decimal strings of the positions. -/
def fieldsOf (fields? : Option (List String)) (n : Nat) : List String :=
  match fields? with
  | some fs => fs
  | none => (List.range n).map toString

/-- First index of a field name in a field list (`list.index`, first match —
the spec's first-match field lookup). -/
def firstIndexOf : List String → String → Option Nat
  | [], _ => none
  | g :: gs, f => if g = f then some 0 else (firstIndexOf gs f).map (· + 1)

/-- Modelled from the spec (first-match field lookup) and
`RecordForm.field_to_index` (`forms/recordform.py`, not under `src/`): a
named record resolves a field name to its first index; a tuple record parses
the name as a decimal position, which must be in range. -/
def fieldToIndex (fields? : Option (List String)) (numContents : Nat)
    (f : String) : Option Nat :=
  match fields? with
  | none =>
    match f.toNat? with
    | some i => if i < numContents then some i else none
    | none => none
  | some fs => firstIndexOf fs f

/-- Errors of the merge algorithm. -/
inductive MergeErr where
  | tupleArityMismatch
  | fieldNotFound
  | fieldSetMismatch
  | namedWithTuple
  | incompatibleKinds
  | emptyRecordLength
  deriving Repr, DecidableEq

/-- Translated from `RecordArray.content`
(`src/awkward/contents/recordarray.py`): the chosen child is returned whole
when its length equals the record's length, else trimmed to the record's
length. -/
def contentAt (cs : List Content) (L : Nat) (i : Nat) : Content :=
  let out := cs.getD i .empty
  if contentLength out = L then out else trim out L

/-- Field access `record[name]` (`Content.__getitem__` with a string, via
`_getitem_field` and `content`); an unresolvable name is the
`FieldNotFoundError` of the source (an index beyond the children, impossible
for well-formed records, is mapped to the same error). -/
def recordGetField (cs : List Content) (fields? : Option (List String))
    (L : Nat) (f : String) : Except MergeErr Content :=
  match fieldToIndex fields? cs.length f with
  | some i => if i < cs.length then .ok (contentAt cs L i) else .error .fieldNotFound
  | none => .error .fieldNotFound

/-- A successful field access returns a node no deeper than the summed depth
of the record's children. -/
theorem recordGetField_depth (cs : List Content) (fields? : Option (List String))
    (L : Nat) (f : String) (y : Content)
    (h : recordGetField cs fields? L f = .ok y) : depth y ≤ depthList cs := by
  unfold recordGetField at h
  split at h
  · next i hi =>
    split at h
    · next hlt =>
      cases h
      have hmem : cs.getD i .empty ∈ cs := by
        rw [List.getD_eq_getElem cs .empty hlt]
        exact List.getElem_mem hlt
      have hbound := depth_mem_le cs _ hmem
      unfold contentAt
      dsimp only
      split
      · exact hbound
      · rw [depth_trim]
        exact hbound
    · cases h
  · cases h

/-- Sorting of a field-name list (`fields.copy(); fields.sort()` in the
source's named-record merge branch). -/
def sortedFields (fs : List String) : List String :=
  fs.mergeSort (fun a b => a ≤ b)

/-- Set equality of field names (`set(self._fields) == set(other._fields)` in
`_mergeable_next`). -/
def sameFieldSet (fs₁ fs₂ : List String) : Bool :=
  fs₁.all (fs₂.contains ·) && fs₂.all (fs₁.contains ·)

/-- Translated from the minimum-length fold closing `RecordArray._mergemany`:
the running minimum starts unset and is lowered by each merged field; with
zero fields it stays unset, which the source then passes into `int(...)` — a
`TypeError`, modelled as an error. -/
def minLengthOf : List Content → Except MergeErr Nat
  | [] => .error .emptyRecordLength
  | c :: cs => .ok (cs.foldl (fun m x => min m (contentLength x)) (contentLength c))

/-- A field resolved by `firstIndexOf` addresses a member of the list. -/
theorem getD_mem_of_lt (cs : List Content) (i : Nat) (h : i < cs.length) :
    cs.getD i .empty ∈ cs := by
  rw [List.getD_eq_getElem cs .empty h]
  exact List.getElem_mem h

mutual

/-- Translated from `RecordArray._mergeable_next`
(`src/awkward/contents/recordarray.py`), with the behaviour of non-record
`self` nodes modelled from the spec (§4.4): identity-like nodes (Empty)
always merge, option and indexed layers on the other side defer to their
wrapped content, two tuple records need equal arity and pairwise-mergeable
children, two named records need equal field-name sets (as Python sets) and
pairwise-mergeable same-named children, any other record pairing is
unmergeable, and a Flat leaf merges with a Flat leaf (one integer dtype is
modelled; node parameters, which the source also compares, are not
modelled). -/
def mergeableNext (self other : Content) : Bool :=
  match self, other with
  | _, .empty => true
  | self, .indexed _ c => mergeableNext self c
  | self, .indexedOption _ c => mergeableNext self c
  | self, .byteMasked _ c _ => mergeableNext self c
  | self, .unmasked c => mergeableNext self c
  | .record cs₁ none _, .record cs₂ none _ =>
    cs₁.length == cs₂.length && mergeableZip cs₁ cs₂
  | .record cs₁ (some fs₁) _, .record cs₂ (some fs₂) _ =>
    sameFieldSet fs₁ fs₂ && mergeableNamed cs₁ fs₁ cs₂ fs₂
  | .record _ _ _, _ => false
  | .numpy _, .numpy _ => true
  | _, _ => false
termination_by 2 * (depth self + depth other)
decreasing_by
  all_goals simp only [depth]
  all_goals omega

/-- Pairwise mergeability of the children of two tuple records. -/
def mergeableZip : List Content → List Content → Bool
  | [], _ => true
  | _, [] => true
  | a :: as2, b :: bs => mergeableNext a b && mergeableZip as2 bs
termination_by l₁ l₂ => 2 * (depthList l₁ + depthList l₂) + 1
decreasing_by
  all_goals simp only [depthList]
  · have := depth_pos a
    have := depth_pos b
    omega
  · have := depth_pos a
    have := depth_pos b
    omega

/-- Mergeability of the same-named children of two named records
(`y = other._contents[other.field_to_index(field)]` in the source). -/
def mergeableNamed : List Content → List String → List Content → List String → Bool
  | [], _, _, _ => true
  | _ :: _, [], _, _ => true
  | c :: cs, f :: fs, cs₂, fs₂ =>
    match hidx : firstIndexOf fs₂ f with
    | some i =>
      if hlt : i < cs₂.length then
        mergeableNext c (cs₂.getD i .empty) && mergeableNamed cs fs cs₂ fs₂
      else false
    | none => false
termination_by cs₁ _ cs₂ _ => 2 * (depthList cs₁ + depthList cs₂) + 3
decreasing_by
  · have hy := depth_mem_le cs₂ _ (getD_mem_of_lt cs₂ i hlt)
    simp only [depthList]
    have := depth_pos c
    omega
  · simp only [depthList]
    have := depth_pos c
    omega

end

mutual

/-- Translated from `RecordArray._mergemany`
(`src/awkward/contents/recordarray.py`) for a head of exactly `[self, other]`
(the merging strategy groups same-backend operands; `content.py` is not under
`src/`); leaf and non-record merges are modelled from the spec (§4.4: other
variants concatenate their buffers directly, option and indexed layers
concatenate likewise, incompatible pairings fail; the caller-optional union
fallback is out of scope).  The tuple branch keeps the source's retest of
`self.is_tuple` where `array.is_tuple` was evidently intended: it never
examines whether `other` is a tuple, so its
`cannot merge tuple with non-tuple record` error is unreachable and a named
`other` is accepted whenever the lookups `other[str(i)]` resolve. -/
def mergeTwo (self other : Content) : Except MergeErr Content :=
  match self, other with
  | .record cs₁ none L₁, .record cs₂ f₂ L₂ =>
    if cs₁.length = cs₂.length then
      match mergeChildren cs₁ (fieldsOf none cs₁.length) cs₂ f₂ L₁ L₂ with
      | .error e => .error e
      | .ok merged =>
        match minLengthOf merged with
        | .error e => .error e
        | .ok m => .ok (.record merged none m)
    else .error .tupleArityMismatch
  | .record cs₁ none L₁, .empty =>
    match minLengthOf (trimList cs₁ L₁) with
    | .error e => .error e
    | .ok m => .ok (.record (trimList cs₁ L₁) none m)
  | .record _ none _, _ => .error .incompatibleKinds
  | .record cs₁ (some fs₁) L₁, .record cs₂ (some fs₂) L₂ =>
    if sortedFields fs₁ = sortedFields fs₂ then
      match mergeChildren cs₁ fs₁ cs₂ (some fs₂) L₁ L₂ with
      | .error e => .error e
      | .ok merged =>
        match minLengthOf merged with
        | .error e => .error e
        | .ok m => .ok (.record merged (some fs₁) m)
    else .error .fieldSetMismatch
  | .record _ (some _) _, .record _ none _ => .error .namedWithTuple
  | .record cs₁ (some fs₁) L₁, .empty =>
    match minLengthOf (trimList cs₁ L₁) with
    | .error e => .error e
    | .ok m => .ok (.record (trimList cs₁ L₁) (some fs₁) m)
  | .record _ (some _) _, _ => .error .incompatibleKinds
  | .numpy d₁, .numpy d₂ => .ok (.numpy (d₁ ++ d₂))
  | .numpy d₁, .empty => .ok (.numpy d₁)
  | .empty, other => .ok other
  | .listS s₁ e₁ c₁, .listS s₂ e₂ c₂ =>
    match mergeTwo c₁ c₂ with
    | .error e => .error e
    | .ok c => .ok (.listS (s₁ ++ s₂) (e₁ ++ e₂) c)
  | .listOffset o₁ c₁, .listOffset o₂ c₂ =>
    match mergeTwo c₁ c₂ with
    | .error e => .error e
    | .ok c => .ok (.listOffset (o₁ ++ o₂) c)
  | .indexed i₁ c₁, .indexed i₂ c₂ =>
    match mergeTwo c₁ c₂ with
    | .error e => .error e
    | .ok c => .ok (.indexed (i₁ ++ i₂) c)
  | .indexedOption i₁ c₁, .indexedOption i₂ c₂ =>
    match mergeTwo c₁ c₂ with
    | .error e => .error e
    | .ok c => .ok (.indexedOption (i₁ ++ i₂) c)
  | .byteMasked m₁ c₁ v₁, .byteMasked m₂ c₂ v₂ =>
    if v₁ = v₂ then
      match mergeTwo c₁ c₂ with
      | .error e => .error e
      | .ok c => .ok (.byteMasked (m₁ ++ m₂) c v₁)
    else .error .incompatibleKinds
  | .unmasked c₁, .unmasked c₂ =>
    match mergeTwo c₁ c₂ with
    | .error e => .error e
    | .ok c => .ok (.unmasked c)
  | _, _ => .error .incompatibleKinds
termination_by 2 * (depth self + depth other)
decreasing_by
  all_goals simp only [depth]
  all_goals omega

/-- Translated from the per-field loop of `RecordArray._mergemany`: the i-th
trimmed child of `self` is merged with `other[self.index_to_field(i)]`
trimmed to `other`'s length. -/
def mergeChildren : List Content → List String → List Content →
    Option (List String) → Nat → Nat → Except MergeErr (List Content)
  | [], _, _, _, _, _ => .ok []
  | _ :: _, [], _, _, _, _ => .error .fieldNotFound
  | c :: cs, n :: ns, cs₂, f₂, L₁, L₂ =>
    match hy : recordGetField cs₂ f₂ L₂ n with
    | .error e => .error e
    | .ok y =>
      match mergeTwo (trim c L₁) (trim y L₂) with
      | .error e => .error e
      | .ok m =>
        match mergeChildren cs ns cs₂ f₂ L₁ L₂ with
        | .error e => .error e
        | .ok ms => .ok (m :: ms)
termination_by cs₁ _ cs₂ _ _ _ => 2 * (depthList cs₁ + depthList cs₂) + 3
decreasing_by
  · have hd := recordGetField_depth cs₂ f₂ L₂ n y hy
    rw [depth_trim, depth_trim]
    simp only [depthList]
    have := depth_pos c
    omega
  · simp only [depthList]
    have := depth_pos c
    omega

end

/-- Claim C3 meets a code bug: merging the tuple record with contents
`[[1, 2]]` into the NAMED record with fields `["0"]` and contents `[[3]]`
succeeds, returning the tuple record with contents `[[1, 2, 3]]` — although
`_mergeable_next` itself deems the pair unmergeable and the claim (with the
spec) requires a `MergeIncompatibility` failure for any tuple-with-named
pairing.  The source's tuple branch retests `self.is_tuple` where
`array.is_tuple` was intended — its `cannot merge tuple with non-tuple
record` error is unreachable — so the field lookup `array["0"]` succeeds
whenever the named record's field names are the decimal positions. -/
theorem tupleNamedMergeBug :
    mergeableNext (.record [.numpy [1, 2]] none 2)
        (.record [.numpy [3]] (some ["0"]) 1) = false ∧
    mergeTwo (.record [.numpy [1, 2]] none 2)
        (.record [.numpy [3]] (some ["0"]) 1) =
      .ok (.record [.numpy [1, 2, 3]] none 3) := by
  constructor
  · simp [mergeableNext]
  · simp [mergeTwo, mergeChildren, recordGetField, fieldToIndex, firstIndexOf,
      fieldsOf, contentAt, contentLength, trim, minLengthOf,
      show List.range 1 = [0] from rfl,
      show toString (0 : Nat) = "0" from rfl]

/-- Prefix sums with a leading zero (`cumsum[0] = 0; cumsum[1:] = np.cumsum(xs)`
in the source): entry `k` is the sum of the first `k` elements. -/
def cumsumList (xs : List Nat) : List Nat :=
  (List.range (xs.length + 1)).map (fun k => (xs.take k).sum)

/-- Booleans as 0/1 integers (a boolean numpy buffer under `cumsum`). -/
def boolsToNat (bs : List Bool) : List Nat :=
  bs.map (fun b => if b then 1 else 0)

/-- Boolean-mask selection `xs[mask]` of the numeric backend. -/
def maskSelect {α : Type} (xs : List α) (mask : List Bool) : List α :=
  ((xs.zip mask).filter (fun p => p.2)).map Prod.fst

/-- Modelled from the spec (§4.1, local-position-enumeration — `local_index`
with `axis=1`; `_do.py` is not under `src/`): for each sublist of the
offsets, the positions `0, 1, …` within it, flattened. -/
def localIndexContent (offsets : List Nat) : List Nat :=
  (offsets.zip offsets.tail).flatMap (fun p => List.range (p.2 - p.1))

/-- Modelled from `to_ListOffsetArray64(True)` (`listoffsetarray.py`, not
under `src/`): re-base the offsets to start at zero, dropping unreachable
leading content. -/
def rebaseOffsets (offsets : List Nat) (mask : List Bool) :
    List Nat × List Bool :=
  match offsets with
  | [] => ([], mask)
  | o :: _ => (offsets.map (· - o), mask.drop o)

/-- Translated from the plain boolean branch of `_normalise_item_bool_to_int`
(`src/awkward/_slicing.py`, known-data regime): the nested boolean mask
`ListOffsetArray(offsets, NumpyArray(mask))` becomes the integer ragged index
`ListOffsetArray(nextoffsets, NumpyArray(nextcontent))`, with
`nextcontent = localindex[mask]` and `nextoffsets = cumsum[offsets]`. -/
def boolToIntRagged (offsets : List Nat) (mask : List Bool) :
    List Nat × List Nat :=
  let rebased := rebaseOffsets offsets mask
  let offsets2 := rebased.1
  let mask2 := rebased.2
  let localindex := localIndexContent offsets2
  let nextcontent := maskSelect localindex mask2
  let cumsum := cumsumList (boolsToNat mask2)
  let nextoffsets := offsets2.map (fun o => cumsum.getD o 0)
  (nextoffsets, nextcontent)

/-- Sequential numbering of the non-missing retained positions with `-1` at
the missing ones: the scatter
`outindex[~isnegative[expanded]] = arange(nextcontent.shape[0])` of the
source, realised positionally. -/
def arangeAtKept : List Bool → Nat → List Int
  | [], _ => []
  | b :: bs, k =>
    if b then (-1 : Int) :: arangeAtKept bs k
    else (k : Int) :: arangeAtKept bs (k + 1)

/-- Translated from the masked boolean branch of
`_normalise_item_bool_to_int` (`src/awkward/_slicing.py`, known-data regime):
the mask `ListOffsetArray(offsets, IndexedOptionArray(index,
NumpyArray(bools)))` becomes `ListOffsetArray(nextoffsets,
IndexedOptionArray(outindex, NumpyArray(nextcontent)))`.
`expanded = bools[safeindex]` materialises one boolean per position (a `-1`
Python-indexes the last element — junk that both overwrite passes replace,
and that the source replaces by `ones` when the leaf is empty); missing
positions are excluded from `nextcontent` but counted into the offsets, and
`outindex` numbers the surviving positions sequentially with `-1` at the
missing ones. -/
def boolToIntRaggedOption (offsets : List Nat) (index : List Int)
    (bools : List Bool) : List Nat × List Int × List Nat :=
  let isneg := index.map (fun i => decide (i < 0))
  let safeindex :=
    if index.any (fun i => i < -1) then
      index.map (fun i => if i < 0 then -1 else i)
    else index
  let expanded :=
    if 0 < bools.length then
      safeindex.map (fun i =>
        bools.getD (if i < 0 then bools.length - 1 else i.toNat) false)
    else safeindex.map (fun _ => true)
  let expandedF := (expanded.zip isneg).map (fun p => if p.2 then false else p.1)
  let localindex := localIndexContent offsets
  let nextcontent := maskSelect localindex expandedF
  let expandedT := (expanded.zip isneg).map (fun p => if p.2 then true else p.1)
  let cumsum := cumsumList (boolsToNat expandedT)
  let nextoffsets := offsets.map (fun o => cumsum.getD o 0)
  let keptIsNeg := maskSelect isneg expandedT
  let outindex := arangeAtKept keptIsNeg 0
  (nextoffsets, outindex, nextcontent)

/-- The offsets determined by sublist lengths: `offsets[k]` is the summed
length of the first `k` sublists. -/
def offsetsOf (lens : List Nat) : List Nat := cumsumList lens

/-- A flat buffer split into sublists of the given lengths. -/
def splitByLens : List Nat → List Bool → List (List Bool)
  | [], _ => []
  | l :: ls, mask => mask.take l :: splitByLens ls (mask.drop l)

/-- The local positions of the true entries of one sublist, as the claim
words it. -/
def truePositions (s : List Bool) : List Nat :=
  (List.range s.length).filter (fun p => s.getD p false)

/-- The claim-side normalized content: each element's local position within
its sublist, keeping only the positions where the boolean is true. -/
def specRaggedContent (lens : List Nat) (mask : List Bool) : List Nat :=
  (splitByLens lens mask).flatMap truePositions

/-- The claim-side normalized offsets: a cumulative count of true values per
sublist. -/
def specRaggedOffsets (lens : List Nat) (mask : List Bool) : List Nat :=
  cumsumList ((splitByLens lens mask).map (fun s => s.count true))

/-- Modelled from the spec (§4.3, structured-index descent): jagged gather —
for each outer position, the index Content's own sublist selects, by local
position, elements of the target's corresponding sublist. -/
def jaggedGather (tOff : List Nat) (tVals : List Int) (iOff : List Nat)
    (iVals : List Nat) : List (List Int) :=
  (List.range (min tOff.length iOff.length - 1)).map (fun k =>
    let a := tOff.getD k 0
    let lo := iOff.getD k 0
    let hi := iOff.getD (k + 1) 0
    ((iVals.drop lo).take (hi - lo)).map (fun j => tVals.getD (a + j) 0))

/-- Modelled from the spec (§4.3, missingness propagation): jagged gather
through an option layer — sentinel positions of the normalized index surface
as missing, the others select through the retained content. -/
def jaggedGatherOpt (tOff : List Nat) (tVals : List Int) (iOff : List Nat)
    (outindex : List Int) (iVals : List Nat) : List (List (Option Int)) :=
  (List.range (min tOff.length iOff.length - 1)).map (fun k =>
    let a := tOff.getD k 0
    let lo := iOff.getD k 0
    let hi := iOff.getD (k + 1) 0
    ((outindex.drop lo).take (hi - lo)).map (fun j =>
      if j < 0 then none
      else some (tVals.getD (a + (iVals.getD j.toNat 0)) 0)))

/-- Prefix-sum recurrence: the cumulative sums of `x :: xs` are `0` followed
by the cumulative sums of `xs` shifted by `x`. -/
theorem cumsumList_cons (x : Nat) (xs : List Nat) :
    cumsumList (x :: xs) = 0 :: (cumsumList xs).map (x + ·) := by
  unfold cumsumList
  rw [List.length_cons, List.range_succ_eq_map]
  simp only [List.map_cons, List.take_zero, List.sum_nil, List.map_map]
  congr 1

/-- The cumulative-sum list always starts with `0`. -/
theorem cumsumList_eq_cons (xs : List Nat) :
    cumsumList xs = 0 :: (cumsumList xs).tail := by
  cases xs with
  | nil => rfl
  | cons x t => rw [cumsumList_cons]; rfl

/-- Indexing the cumulative-sum list gives the prefix sum. -/
theorem cumsumList_getD (xs : List Nat) (k : Nat) (h : k ≤ xs.length) :
    (cumsumList xs).getD k 0 = (xs.take k).sum := by
  unfold cumsumList
  rw [List.getD_eq_getElem?_getD, List.getElem?_map, List.getElem?_range (by omega)]
  rfl

/-- A prefix sum never exceeds the total. -/
theorem sum_take_le (l : List Nat) (k : Nat) : (l.take k).sum ≤ l.sum := by
  conv_rhs => rw [← List.take_append_drop k l]
  rw [List.sum_append]
  omega

/-- Re-basing leaves already-zero-based offsets and their content alone. -/
theorem rebaseOffsets_offsetsOf (lens : List Nat) (mask : List Bool) :
    rebaseOffsets (offsetsOf lens) mask = (offsetsOf lens, mask) := by
  unfold offsetsOf
  rw [cumsumList_eq_cons lens]
  unfold rebaseOffsets
  simp

/-- Local-index unfolding at a two-element offsets head. -/
theorem localIndexContent_cons (a b : Nat) (rest : List Nat) :
    localIndexContent (a :: b :: rest) =
      List.range (b - a) ++ localIndexContent (b :: rest) := by
  simp [localIndexContent]

/-- Local positions are invariant under a uniform shift of the offsets. -/
theorem localIndexContent_map_add (c : Nat) (os : List Nat) :
    localIndexContent (os.map (c + ·)) = localIndexContent os := by
  unfold localIndexContent
  rw [← List.map_tail, List.zip_map, List.flatMap_map]
  congr 1
  funext p
  simp [Nat.add_sub_add_left]

/-- The flattened local positions of zero-based offsets are the per-sublist
ranges. -/
theorem localIndexContent_offsetsOf (lens : List Nat) :
    localIndexContent (offsetsOf lens) = lens.flatMap List.range := by
  induction lens with
  | nil => rfl
  | cons l ls ih =>
    unfold offsetsOf at ih ⊢
    rw [cumsumList_cons, cumsumList_eq_cons ls, List.map_cons]
    rw [localIndexContent_cons]
    have h2 : (l + 0) :: List.map (fun x => l + x) (cumsumList ls).tail
        = (cumsumList ls).map (fun x => l + x) := by
      conv_rhs => rw [cumsumList_eq_cons ls]
      simp
    rw [h2, localIndexContent_map_add, ih, List.flatMap_cons]
    simp

/-- Mask selection splits across an append when the first chunk is covered. -/
theorem maskSelect_append {α : Type} (xs ys : List α) (m : List Bool)
    (h : xs.length ≤ m.length) :
    maskSelect (xs ++ ys) m =
      maskSelect xs (m.take xs.length) ++ maskSelect ys (m.drop xs.length) := by
  unfold maskSelect
  conv_lhs => rw [← List.take_append_drop xs.length m]
  rw [List.zip_append (by rw [List.length_take]; omega)]
  rw [List.filter_append, List.map_append]

/-- Mask selection of the range of local positions keeps exactly the true
positions. -/
theorem maskSelect_range (s : List Bool) :
    maskSelect (List.range s.length) s = truePositions s := by
  induction s with
  | nil => rfl
  | cons b bs ih =>
    unfold maskSelect truePositions at ih ⊢
    rw [List.length_cons, List.range_succ_eq_map]
    simp only [List.zip_cons_cons, List.filter_cons, List.zip_map_left,
      List.filter_map, List.map_map]
    have e1 : ((fun (p : Nat × Bool) => p.2) ∘ Prod.map Nat.succ id)
        = (fun (p : Nat × Bool) => p.2) := by
      funext p; cases p; rfl
    have e2 : ((fun p => (b :: bs).getD p false) ∘ Nat.succ)
        = (fun p => bs.getD p false) := by
      funext p; rfl
    have e3 : (Prod.fst ∘ Prod.map Nat.succ (id : Bool → Bool))
        = (Nat.succ ∘ Prod.fst) := by
      funext p; cases p; rfl
    rw [e1, e2, List.getD_cons_zero]
    cases b with
    | false =>
      simp only [Bool.false_eq_true, if_false]
      rw [List.map_map, e3, ← List.map_map, ih]
    | true =>
      simp only [if_true, List.map_cons]
      rw [List.map_map, e3, ← List.map_map, ih]

/-- The sum of a 0/1-encoded boolean buffer counts its true entries. -/
theorem sum_boolsToNat (s : List Bool) : (boolsToNat s).sum = s.count true := by
  induction s with
  | nil => rfl
  | cons b bs ih =>
    unfold boolsToNat at ih ⊢
    rw [List.map_cons, List.sum_cons, List.count_cons, ih]
    cases b <;> simp [Nat.add_comm]

/-- Splitting by lengths yields one sublist per length. -/
theorem splitByLens_length (lens : List Nat) :
    ∀ mask : List Bool, (splitByLens lens mask).length = lens.length := by
  induction lens with
  | nil => intro mask; rfl
  | cons l ls ih => intro mask; simp [splitByLens, ih]

/-- The count of true entries below a sublist boundary equals the summed
per-sublist counts before it. -/
theorem countTake (lens : List Nat) :
    ∀ (mask : List Bool) (k : Nat), mask.length = lens.sum →
    ((boolsToNat mask).take ((lens.take k).sum)).sum =
      (((splitByLens lens mask).map (fun s => s.count true)).take k).sum := by
  induction lens with
  | nil => intro mask k h; simp [splitByLens]
  | cons l ls ih =>
    intro mask k h
    rw [List.sum_cons] at h
    cases k with
    | zero => simp
    | succ j =>
      rw [List.take_succ_cons, List.sum_cons, List.take_add, List.sum_append]
      rw [show (boolsToNat mask).take l = boolsToNat (mask.take l) from by
        simp [boolsToNat, List.map_take]]
      rw [show (boolsToNat mask).drop l = boolsToNat (mask.drop l) from by
        simp [boolsToNat, List.map_drop]]
      rw [sum_boolsToNat]
      simp only [splitByLens, List.map_cons, List.take_succ_cons, List.sum_cons]
      rw [ih (mask.drop l) j (by rw [List.length_drop]; omega)]

/-- The offsets produced by the normalisation are the claim-side cumulative
per-sublist counts of true entries. -/
theorem boolOffsets_eq (lens : List Nat) (mask : List Bool)
    (h : mask.length = lens.sum) :
    (offsetsOf lens).map (fun o => (cumsumList (boolsToNat mask)).getD o 0) =
      specRaggedOffsets lens mask := by
  unfold offsetsOf specRaggedOffsets
  have hl : cumsumList lens =
      (List.range (lens.length + 1)).map (fun k => (lens.take k).sum) := rfl
  have hr : cumsumList ((splitByLens lens mask).map (fun s => s.count true)) =
      (List.range (((splitByLens lens mask).map (fun s => s.count true)).length + 1)).map
        (fun k =>
          (((splitByLens lens mask).map (fun s => s.count true)).take k).sum) := rfl
  rw [hl, hr, List.map_map, List.length_map, splitByLens_length]
  apply List.map_congr_left
  intro k hk
  rw [List.mem_range] at hk
  have hb : (lens.take k).sum ≤ (boolsToNat mask).length := by
    have := sum_take_le lens k
    simp only [boolsToNat, List.length_map]
    omega
  simp only [Function.comp_apply]
  rw [cumsumList_getD _ _ hb]
  exact countTake lens mask k h

/-- The content produced by the normalisation is the claim-side flattening of
the true local positions of each sublist. -/
theorem boolContent_eq (lens : List Nat) :
    ∀ mask : List Bool, mask.length = lens.sum →
    maskSelect (lens.flatMap List.range) mask = specRaggedContent lens mask := by
  induction lens with
  | nil =>
    intro mask h
    simp [maskSelect, specRaggedContent, splitByLens]
  | cons l ls ih =>
    intro mask h
    rw [List.sum_cons] at h
    unfold specRaggedContent splitByLens
    rw [List.flatMap_cons, List.flatMap_cons]
    rw [maskSelect_append _ _ _ (by rw [List.length_range]; omega)]
    rw [List.length_range]
    congr 1
    · have hlen : (mask.take l).length = l := by rw [List.length_take]; omega
      have hms := maskSelect_range (mask.take l)
      rw [hlen] at hms
      exact hms
    · exact ih (mask.drop l) (by rw [List.length_drop]; omega)

/-- Claim C5: normalizing a boolean index array nested inside ragged lists
converts it to an integer ragged index whose content holds each element's
local position within its sublist at the positions where the boolean is
true, and whose offsets are the cumulative count of true values per sublist
(first conjunct, for every zero-based offsets buffer and flat mask);
concretely, for offsets `[0,3,3,5]` over flat content `[1,2,3,4,5]` and mask
`[[T,F,T],[],[F,T]]` the normalized index applied by the jagged gather
yields `[[1,3],[],[5]]` (second conjunct); and when the boolean leaf carries
missingness — index `[0,-1,1,2,3]` over bools `[T,T,F,T]`, i.e. the mask
`[[T,None,T],[],[F,T]]` — the missing element is passed through
positionally as missing in the result and excluded from the retained
content: the normalized index is offsets `[0,3,3,4]` over option-index
`[0,-1,1,2]` over content `[0,2,1]`, and applying it yields
`[[1, missing, 3], [], [5]]` (third conjunct). -/
theorem nestedBoolMaskNormalisation :
    (∀ (lens : List Nat) (mask : List Bool), mask.length = lens.sum →
      boolToIntRagged (offsetsOf lens) mask =
        (specRaggedOffsets lens mask, specRaggedContent lens mask)) ∧
    (boolToIntRagged [0, 3, 3, 5] [true, false, true, false, true] =
        ([0, 2, 2, 3], [0, 2, 1]) ∧
      jaggedGather [0, 3, 3, 5] [1, 2, 3, 4, 5] [0, 2, 2, 3] [0, 2, 1] =
        [[1, 3], [], [5]]) ∧
    (boolToIntRaggedOption [0, 3, 3, 5] [0, -1, 1, 2, 3]
        [true, true, false, true] =
        ([0, 3, 3, 4], [0, -1, 1, 2], [0, 2, 1]) ∧
      jaggedGatherOpt [0, 3, 3, 5] [1, 2, 3, 4, 5] [0, 3, 3, 4] [0, -1, 1, 2]
        [0, 2, 1] = [[some 1, none, some 3], [], [some 5]]) := by
  refine ⟨?_, ⟨by decide, by decide⟩, ⟨by decide, by decide⟩⟩
  intro lens mask h
  have h1 := boolOffsets_eq lens mask h
  have h2 := boolContent_eq lens mask h
  simp only [boolToIntRagged, rebaseOffsets_offsetsOf, localIndexContent_offsetsOf]
  rw [Prod.mk.injEq]
  exact ⟨h1, h2⟩

/-- Witness for Claim C5's universally quantified conjunct at sublist lengths
`[3, 0, 2]` and mask `[T, F, T, F, T]` (the specification's own example). -/
theorem nestedBoolMaskNormalisationWitness :
    boolToIntRagged (offsetsOf [3, 0, 2]) [true, false, true, false, true] =
      (specRaggedOffsets [3, 0, 2] [true, false, true, false, true],
       specRaggedContent [3, 0, 2] [true, false, true, false, true]) :=
  nestedBoolMaskNormalisation.1 [3, 0, 2] [true, false, true, false, true]
    (by decide)

end Awkward
